import Mathlib

/-!
Verification of the gocron scheduler core (package gocron, files
gocron.go and scheduler.go) against its natural-language specification.

Modelling choices:
* Go pointers `*Job` are modelled as natural-number handles (`Nat`)
  dereferenced through a heap function `Nat → Job`; pointer equality is
  handle equality, and mutation of a shared Job is an update of the heap
  at its handle.
* `time.Time` values are modelled as `Int` timestamps; the zero value
  `time.Time{}` is `0`.  `time.Duration` sleeps only pause execution and
  have no effect on the modelled state.
* The Go map `map[string]*Job` is modelled as an association list with
  unique keys; assignment replaces any previous binding, `delete`
  removes the binding.
* The mutex, the `isRunning` flag, the stop channel and the background
  ticker goroutine (`Start`/`Stop`/`IsRunning`) are concurrency and
  real-time features that are not part of the state model; the loop body
  `runPending` is modelled as a function of the tick timestamp.
* The file job.go of this repository (the `Job` type with `newJob`,
  `init`, `shouldRun`, `run`, `pause`, `resume`, `updateInterval`) is not
  available; those operations are modelled from the spec's Job contract
  (§6) and marked as such below.
-/

namespace Gocron

open scoped List

/-- Modelled from the spec: the Job record of the missing file job.go.
A Job has a mutable `interval` (count of its time unit), `lastRun` and
`nextRun` timestamps, an enabled/disabled flag and a bound callable.
The callable itself is not modelled; `runCount` counts its invocations.
`initialized` records whether `lastRun`/`nextRun` have been set. -/
structure Job where
  interval : Nat
  lastRun : Int
  nextRun : Int
  enabled : Bool
  initialized : Bool
  runCount : Nat
deriving DecidableEq, Repr

/-- Modelled from the spec: `newJob(interval)` from the missing job.go
creates a fresh, enabled, not yet initialized job with the given
interval.  The `.Location(...)` builder call is a time-zone binding with
no effect on the modelled state. -/
def newJob (interval : Nat) : Job :=
  { interval := interval, lastRun := 0, nextRun := 0,
    enabled := true, initialized := false, runCount := 0 }

/-- Modelled from the spec: `job.init(now)` sets `lastRun`/`nextRun`
anchored to `now` (spec §6: "sets lastRun/nextRun anchored to now"); for
a plain interval job the next run is one interval after `now`. -/
def initJob (now : Int) (j : Job) : Job :=
  { j with lastRun := now, nextRun := now + (j.interval : Int), initialized := true }

/-- Modelled from the spec: `job.isInit()` is true once the job has been
initialized. -/
def isInit (j : Job) : Bool := j.initialized

/-- Modelled from the spec: `job.shouldRun(now)` is "true iff due and
enabled" (spec §6); due means `now` has reached `nextRun`. -/
def shouldRun (now : Int) (j : Job) : Bool := j.enabled && decide (j.nextRun ≤ now)

/-- Modelled from the spec: `job.run()` invokes the bound callable and
advances `lastRun`/`nextRun` for the next cycle (spec §6); the
invocation is recorded in `runCount`. -/
def runJob (j : Job) : Job :=
  { j with lastRun := j.nextRun, nextRun := j.nextRun + (j.interval : Int),
           runCount := j.runCount + 1 }

/-- Modelled from the spec: `job.pause()` disables the job. -/
def pauseJob (j : Job) : Job := { j with enabled := false }

/-- Modelled from the spec: `job.resume()` enables the job. -/
def resumeJob (j : Job) : Job := { j with enabled := true }

/-- Modelled from the spec: `job.updateInterval(n)` mutates the repeat
interval (spec §6). -/
def updateIntervalJob (n : Nat) (j : Job) : Job := { j with interval := n }

/-- Heap update at one handle: the model of writing through a `*Job`. -/
def hupdate (hp : Nat → Job) (i : Nat) (j : Job) : Nat → Job :=
  fun k => if k = i then j else hp k

/-- Lookup in the association-list model of Go's `map[string]*Job`. -/
def mlookup (k : String) : List (String × Nat) → Option Nat
  | [] => none
  | p :: r => if p.1 = k then some p.2 else mlookup k r

/-- Deletion `delete(m, k)` in the map model: drop the binding of `k`. -/
def mapDel (k : String) : List (String × Nat) → List (String × Nat)
  | [] => []
  | p :: r => if p.1 = k then mapDel k r else p :: mapDel k r

/-- Assignment `m[k] = v` in the map model: replaces any binding of `k`. -/
def mapSet (k : String) (v : Nat) (m : List (String × Nat)) : List (String × Nat) :=
  (k, v) :: mapDel k m

/-- The scheduler state (struct `scheduler` in scheduler.go): the name
index `jobMap`, the emergency queue `ejobs`, the ordered jobs sequence
`jobs` (lists of handles), the heap backing all job handles, and the
next fresh handle.  The mutex, running flag, stop channel and location
are not modelled (see the file header). -/
structure Scheduler where
  jobMap : List (String × Nat)
  ejobs : List Nat
  jobs : List Nat
  heap : Nat → Job
  nextId : Nat

/-- Model of `NewScheduler()`: empty registry, empty name index, empty emergency
queue. -/
def NewScheduler : Scheduler :=
  { jobMap := [], ejobs := [], jobs := [], heap := fun _ => newJob 0, nextId := 0 }

section sorting

variable {κ : Type} [LinearOrder κ]

/-- One step of the insertion sort used in `Every`/`EveryWithName`
(scheduler.go lines 136-145): the new element is shifted left past every
element whose key is strictly greater, so it lands after all elements
with key less than or equal to its own. -/
def insertBy (key : Nat → κ) (x : Nat) : List Nat → List Nat
  | [] => [x]
  | y :: ys => if key y > key x then x :: y :: ys else y :: insertBy key x ys

/-- The full insertion-sort pass of scheduler.go lines 136-145 (the
imperative loop `for i := 1; i < len(s.jobs); i++ { ... }` inserting
`s.jobs[i]` into the already sorted prefix), as a left fold. -/
def isortBy (key : Nat → κ) (l : List Nat) : List Nat :=
  l.foldl (fun acc x => insertBy key x acc) []

/-- Model of one iteration of the gap-6 ShellSort pass in Go's pre-1.19
`sort.Sort` small-slice path (sort.go, quickSort, the `b-a <= 12`
branch): `if data.Less(i, i-6) { data.Swap(i, i-6) }`. -/
def shellStep6 (key : Nat → κ) (l : List Nat) (i : Nat) : List Nat :=
  match l.get? i, l.get? (i - 6) with
  | some x, some y => if key x < key y then (l.set i y).set (i - 6) x else l
  | _, _ => l

/-- Model of the full gap-6 pass `for i := a + 6; i < b; i++ { ... }`
over a whole slice (`a = 0`, `b = l.length`); empty when the slice has
at most 6 elements. -/
def shellPass6 (key : Nat → κ) (l : List Nat) : List Nat :=
  (List.range' 6 (l.length - 6)).foldl (shellStep6 key) l

/-- Model of Go's `sort.Sort` on a slice of at most 12 elements as
shipped by the toolchains contemporary with this repository (Go up to
1.18, sort.go quickSort): a gap-6 ShellSort pass - which swaps only on
strict Less but can carry an element past equal ones, breaking
stability for lengths 7 to 12 - followed by the stable insertion sort.
Go 1.19+ replaces this path by plain insertion sort for lengths up to
12.  On at most 6 elements the pass is a no-op and every version agrees
with `isortBy` (theorem goSortSmall_eq_isortBy). -/
def goSortSmall (key : Nat → κ) (l : List Nat) : List Nat :=
  isortBy key (shellPass6 key l)

end sorting

/-- The comparator of `scheduler.Less` (scheduler.go line 112):
`s.jobs[j].nextRun.After(s.jobs[i].nextRun)`, i.e. strictly earlier
`nextRun` comes first.  `sort.Sort(s)` with this comparator is modelled
as the stable insertion sort `isortBy`.  Go documents `sort.Sort` as
NOT stable, so this model is an idealization: it coincides with the
program exactly on slices of at most 6 elements (where the
repository-era toolchains run a no-op gap-6 pass followed by insertion
sort - see `goSortSmall` and theorem goSortSmall_eq_isortBy - and Go
1.19+ runs insertion sort outright), and it agrees with every correct
`sort.Sort` implementation up to the ordering of equal keys.
Accordingly, every theorem below that uses this model is either
invariant under reordering of equal-key elements (sorted permutation,
membership, frame and run-count statements) or restricted to registries
of at most 6 jobs (the tie-breaking clause of C6); the behaviour beyond
that regime is settled against `goSortSmall`. -/
def sortByNextRun (hp : Nat → Job) (l : List Nat) : List Nat :=
  isortBy (fun h => (hp h).nextRun) l

/-- The interval keyed sort used after insertions. -/
def sortByInterval (hp : Nat → Job) (l : List Nat) : List Nat :=
  isortBy (fun h => (hp h).interval) l

/-- Model of `scheduler.Every(interval)` (scheduler.go lines 129-148): create a
job, append it, re-sort by interval; returns the new job's handle. -/
def Every (interval : Nat) (s : Scheduler) : Nat × Scheduler :=
  let id := s.nextId
  let hp := hupdate s.heap id (newJob interval)
  (id, { s with heap := hp, jobs := sortByInterval hp (s.jobs ++ [id]),
                nextId := id + 1 })

/-- Model of `scheduler.EveryWithName(interval, name)` (scheduler.go lines
151-184): if the name is bound, remove the old job from the sequence
(the source loop removes its one occurrence; handles occur at most once
by the data model's unique-membership invariant, spec §3); then create a
new job, overwrite the name binding, append and re-sort by interval. -/
def EveryWithName (interval : Nat) (name : String) (s : Scheduler) : Nat × Scheduler :=
  let jobs1 := match mlookup name s.jobMap with
    | some oldJob => s.jobs.erase oldJob
    | none => s.jobs
  let id := s.nextId
  let hp := hupdate s.heap id (newJob interval)
  (id, { s with heap := hp, jobMap := mapSet name id s.jobMap,
                jobs := sortByInterval hp (jobs1 ++ [id]), nextId := id + 1 })

/-- Model of `scheduler.Emergency()` (scheduler.go lines 187-196): create a job
with interval 1 ("cheat the interval") and append it to the emergency
queue, not the registry. -/
def Emergency (s : Scheduler) : Nat × Scheduler :=
  let id := s.nextId
  (id, { s with heap := hupdate s.heap id (newJob 1),
                ejobs := s.ejobs ++ [id], nextId := id + 1 })

/-- Model of `scheduler.NextRun()` (scheduler.go lines 117-126): on an empty
registry return (nil, time.Time{}); otherwise `sort.Sort(s)` the stored
sequence in place by `nextRun` and return the first element and its
`nextRun`. -/
def NextRun (s : Scheduler) : (Option Nat × Int) × Scheduler :=
  if s.jobs = [] then ((none, 0), s)
  else
    let sorted := sortByNextRun s.heap s.jobs
    ((match sorted with
      | [] => (none, 0)
      | h :: _ => (some h, (s.heap h).nextRun)), { s with jobs := sorted })

/-- Model of `scheduler.NextRun` (scheduler.go lines 117-126) as
compiled by the repository-era Go toolchains, for registries of at most
12 jobs: identical to `NextRun` except that `sort.Sort` is the actual
small-slice path `goSortSmall` (gap-6 ShellSort pass plus insertion
sort) instead of the idealized stable sort. -/
def NextRunGo118 (s : Scheduler) : (Option Nat × Int) × Scheduler :=
  if s.jobs = [] then ((none, 0), s)
  else
    let sorted := goSortSmall (fun h => (s.heap h).nextRun) s.jobs
    ((match sorted with
      | [] => (none, 0)
      | h :: _ => (some h, (s.heap h).nextRun)), { s with jobs := sorted })

/-- The fold draining the emergency queue (scheduler.go lines 204-206):
`for _, job := range s.ejobs { job.run() }`. -/
def drainEmergency (hp : Nat → Job) (l : List Nat) : Nat → Job :=
  l.foldl (fun h e => hupdate h e (runJob (h e))) hp

/-- Per-job body of the main loop of `runPending` (scheduler.go lines
212-223): initialize if needed, then run when `shouldRun(now)`. -/
def jobStep (now : Int) (j : Job) : Job :=
  let j1 := if isInit j then j else initJob now j
  if shouldRun now j1 then runJob j1 else j1

/-- The main loop of `runPending` over the (sorted) jobs sequence. -/
def runLoop (now : Int) (hp : Nat → Job) (l : List Nat) : Nat → Job :=
  l.foldl (fun h x => hupdate h x (jobStep now (h x))) hp

/-- Model of `scheduler.runPending(now)` (scheduler.go lines 199-224): run every
emergency job, clear the emergency queue, `sort.Sort(s)` the sequence in
place by `nextRun`, then initialize/run each job in that order.
(`RunPending()` calls this with the real wall clock, not modelled.) -/
def runPending (now : Int) (s : Scheduler) : Scheduler :=
  let hp1 := drainEmergency s.heap s.ejobs
  let sorted := sortByNextRun hp1 s.jobs
  { s with heap := runLoop now hp1 sorted, ejobs := [], jobs := sorted }

/-- Per-job body of `RunAllWithDelay` (scheduler.go lines 243-251):
initialize if needed, then run unconditionally ("force to run"). -/
def forceStep (now : Int) (j : Job) : Job :=
  runJob (if isInit j then j else initJob now j)

/-- Model of `scheduler.RunAllWithDelay(d)` (scheduler.go lines 237-253):
`sort.Sort(s)` in place by `nextRun`, then run every job regardless of
due time or enabled flag, sleeping `d` between jobs (the sleep has no
state effect). -/
def RunAllWithDelay (d : Nat) (now : Int) (s : Scheduler) : Scheduler :=
  let _ := d
  let sorted := sortByNextRun s.heap s.jobs
  { s with heap := sorted.foldl (fun h x => hupdate h x (forceStep now (h x))) s.heap,
           jobs := sorted }

/-- The package-level `RunAllWithDelay(d)` of gocron.go lines 65-67: it
forwards to the package's shared default scheduler. -/
def packageRunAllWithDelay (d : Nat) (now : Int) (defaultScheduler : Scheduler) : Scheduler :=
  RunAllWithDelay d now defaultScheduler

/-- Model of `scheduler.RunAll()` (scheduler.go lines 232-234): the body is
`RunAllWithDelay(0)` - the package-level function, not the method - so
it runs the package default scheduler and leaves the receiver `s`
untouched.  The result is the pair (receiver, default) after the call. -/
def RunAll (now : Int) (s defaultScheduler : Scheduler) : Scheduler × Scheduler :=
  (s, packageRunAllWithDelay 0 now defaultScheduler)

/-- Model of `scheduler.Remove(j)` (scheduler.go lines 262-278): scan the
sequence for the handle, remove its first occurrence, return whether it
was found.  The name index is not touched. -/
def Remove (j : Nat) (s : Scheduler) : Bool × Scheduler :=
  if j ∈ s.jobs then (true, { s with jobs := s.jobs.erase j }) else (false, s)

/-- Model of `scheduler.RemoveWithName(name)` (scheduler.go lines 281-298): look
the name up; if bound and the job is in the sequence, remove it from the
sequence and delete the name binding; otherwise report false. -/
def RemoveWithName (name : String) (s : Scheduler) : Bool × Scheduler :=
  match mlookup name s.jobMap with
  | some dJob =>
    if dJob ∈ s.jobs then
      (true, { s with jobs := s.jobs.erase dJob, jobMap := mapDel name s.jobMap })
    else (false, s)
  | none => (false, s)

/-- Model of `scheduler.UpdateIntervalWithName(name, interval)` (scheduler.go
lines 301-310): look the name up and update that job's interval; the
sequence is not re-sorted. -/
def UpdateIntervalWithName (name : String) (interval : Nat) (s : Scheduler) : Bool × Scheduler :=
  match mlookup name s.jobMap with
  | some h => (true, { s with heap := hupdate s.heap h (updateIntervalJob interval (s.heap h)) })
  | none => (false, s)

/-- Model of `scheduler.PauseWithName(name)` (scheduler.go lines 313-322). -/
def PauseWithName (name : String) (s : Scheduler) : Bool × Scheduler :=
  match mlookup name s.jobMap with
  | some h => (true, { s with heap := hupdate s.heap h (pauseJob (s.heap h)) })
  | none => (false, s)

/-- Model of `scheduler.PauseAll()` (scheduler.go lines 325-332): `for _, v :=
range s.jobMap { v.pause() }` - it iterates the NAME INDEX, not the jobs
sequence. -/
def PauseAll (s : Scheduler) : Scheduler :=
  { s with heap := s.jobMap.foldl (fun h p => hupdate h p.2 (pauseJob (h p.2))) s.heap }

/-- Model of `scheduler.ResumeWithName(name)` (scheduler.go lines 335-344). -/
def ResumeWithName (name : String) (s : Scheduler) : Bool × Scheduler :=
  match mlookup name s.jobMap with
  | some h => (true, { s with heap := hupdate s.heap h (resumeJob (s.heap h)) })
  | none => (false, s)

/-- Model of `scheduler.ResumeAll()` (scheduler.go lines 347-354): iterates the
name index, like `PauseAll`. -/
def ResumeAll (s : Scheduler) : Scheduler :=
  { s with heap := s.jobMap.foldl (fun h p => hupdate h p.2 (resumeJob (h p.2))) s.heap }

/-- Model of `scheduler.Clear()` (scheduler.go lines 357-363): discard the jobs
sequence and the name index; the emergency queue is not touched. -/
def Clear (s : Scheduler) : Scheduler :=
  { s with jobs := [], jobMap := [] }

/-! ### Properties of the insertion sort -/

section sortproofs

variable {κ : Type} [LinearOrder κ] (key : Nat → κ)

theorem insertBy_perm (x : Nat) (l : List Nat) : insertBy key x l ~ x :: l := by
  induction l with
  | nil => rfl
  | cons y ys ih =>
    simp only [insertBy]
    split
    · exact List.Perm.refl _
    · exact (ih.cons y).trans (List.Perm.swap x y ys)

theorem mem_insertBy {a x : Nat} {l : List Nat} :
    a ∈ insertBy key x l ↔ a = x ∨ a ∈ l := by
  rw [(insertBy_perm key x l).mem_iff, List.mem_cons]

theorem sorted_insertBy (x : Nat) {l : List Nat}
    (h : l.Pairwise (fun a b => key a ≤ key b)) :
    (insertBy key x l).Pairwise (fun a b => key a ≤ key b) := by
  induction l with
  | nil => simp [insertBy]
  | cons y ys ih =>
    rw [List.pairwise_cons] at h
    simp only [insertBy]
    split
    · rename_i hlt
      refine List.pairwise_cons.2 ⟨?_, List.pairwise_cons.2 ⟨h.1, h.2⟩⟩
      intro b hb
      rcases List.mem_cons.1 hb with rfl | hb
      · exact le_of_lt hlt
      · exact le_trans (le_of_lt hlt) (h.1 b hb)
    · rename_i hge
      refine List.pairwise_cons.2 ⟨?_, ih h.2⟩
      intro b hb
      rcases (mem_insertBy key).1 hb with rfl | hb
      · exact not_lt.1 hge
      · exact h.1 b hb

theorem foldl_insertBy_perm (l acc : List Nat) :
    l.foldl (fun acc x => insertBy key x acc) acc ~ acc ++ l := by
  induction l generalizing acc with
  | nil => simp
  | cons x xs ih =>
    simp only [List.foldl_cons]
    calc xs.foldl (fun acc x => insertBy key x acc) (insertBy key x acc)
        ~ insertBy key x acc ++ xs := ih _
      _ ~ (x :: acc) ++ xs := (insertBy_perm key x acc).append_right xs
      _ ~ acc ++ x :: xs := List.perm_middle.symm

theorem isortBy_perm (l : List Nat) : isortBy key l ~ l := by
  simpa using foldl_insertBy_perm key l []

theorem mem_isortBy {a : Nat} {l : List Nat} : a ∈ isortBy key l ↔ a ∈ l :=
  (isortBy_perm key l).mem_iff

theorem sorted_isortBy (l : List Nat) :
    (isortBy key l).Pairwise (fun a b => key a ≤ key b) := by
  have aux : ∀ (l acc : List Nat), acc.Pairwise (fun a b => key a ≤ key b) →
      (l.foldl (fun acc x => insertBy key x acc) acc).Pairwise
        (fun a b => key a ≤ key b) := by
    intro l
    induction l with
    | nil => intro acc h; simpa using h
    | cons x xs ih => intro acc h; exact ih _ (sorted_insertBy key x h)
  exact aux l [] (by simp)

theorem insertBy_eq_append {x : Nat} {l : List Nat}
    (h : ∀ y ∈ l, key y ≤ key x) : insertBy key x l = l ++ [x] := by
  induction l with
  | nil => rfl
  | cons y ys ih =>
    simp only [insertBy, gt_iff_lt]
    rw [if_neg (not_lt.2 (h y (by simp))), ih (fun z hz => h z (by simp [hz]))]
    rfl

theorem isortBy_append_singleton (l : List Nat) (x : Nat) :
    isortBy key (l ++ [x]) = insertBy key x (isortBy key l) := by
  simp [isortBy, List.foldl_append]

theorem isortBy_of_sorted {l : List Nat}
    (h : l.Pairwise (fun a b => key a ≤ key b)) : isortBy key l = l := by
  induction l using List.reverseRecOn with
  | nil => rfl
  | append_singleton l x ih =>
    rw [List.pairwise_append] at h
    rw [isortBy_append_singleton, ih h.1,
      insertBy_eq_append key (fun y hy => h.2.2 y hy x (by simp))]

/-- One step of the running first-minimum used to characterize the head
of the insertion sort. -/
def fmStep (acc : Option Nat) (x : Nat) : Option Nat :=
  match acc with
  | none => some x
  | some m => if key x < key m then some x else some m

/-- The earliest element of `l` attaining the minimal key. -/
def firstMin (l : List Nat) : Option Nat := l.foldl (fmStep key) none

theorem firstMin_append (l : List Nat) (x : Nat) :
    firstMin key (l ++ [x]) = fmStep key (firstMin key l) x := by
  simp [firstMin, List.foldl_append]

theorem fmStep_ne_none (acc : Option Nat) (x : Nat) : fmStep key acc x ≠ none := by
  cases acc with
  | none => simp [fmStep]
  | some m =>
    simp only [fmStep]
    split <;> simp

theorem firstMin_eq_none {l : List Nat} (h : firstMin key l = none) : l = [] := by
  induction l using List.reverseRecOn with
  | nil => rfl
  | append_singleton l x ih =>
    rw [firstMin_append] at h
    exact absurd h (fmStep_ne_none key _ x)

theorem head?_insertBy (x : Nat) (l : List Nat) : (insertBy key x l).head? =
    some (match l with | [] => x | y :: _ => if key x < key y then x else y) := by
  cases l with
  | nil => rfl
  | cons y ys =>
    simp only [insertBy, gt_iff_lt]
    split <;> simp [*]

theorem head?_isortBy (l : List Nat) : (isortBy key l).head? = firstMin key l := by
  induction l using List.reverseRecOn with
  | nil => rfl
  | append_singleton l x ih =>
    rw [isortBy_append_singleton, firstMin_append, ← ih, head?_insertBy]
    cases isortBy key l with
    | nil => simp [fmStep]
    | cons y ys =>
      simp only [List.head?_cons, fmStep]
      split <;> rfl

theorem firstMin_spec (l : List Nat) :
    ∀ h, firstMin key l = some h →
      ∃ pre post, l = pre ++ h :: post ∧ (∀ y ∈ pre, key h < key y) ∧
        ∀ y ∈ l, key h ≤ key y := by
  induction l using List.reverseRecOn with
  | nil => intro h hf; simp [firstMin] at hf
  | append_singleton l x ih =>
    intro h hf
    rw [firstMin_append] at hf
    cases hm : firstMin key l with
    | none =>
      rw [hm] at hf
      have hl := firstMin_eq_none key hm
      subst hl
      simp only [fmStep, Option.some.injEq] at hf
      subst hf
      exact ⟨[], [], rfl, by simp, by simp⟩
    | some m =>
      rw [hm] at hf
      simp only [fmStep] at hf
      by_cases hxm : key x < key m
      · rw [if_pos hxm] at hf
        injection hf with hf
        subst hf
        obtain ⟨pre, post, hl, hpre, hmin⟩ := ih m hm
        refine ⟨l, [], by simp, ?_, ?_⟩
        · intro y hy
          exact lt_of_lt_of_le hxm (hmin y hy)
        · intro y hy
          rcases List.mem_append.1 hy with hy | hy
          · exact le_of_lt (lt_of_lt_of_le hxm (hmin y hy))
          · simp only [List.mem_singleton] at hy
            subst hy
            exact le_refl _
      · rw [if_neg hxm] at hf
        injection hf with hf
        subst hf
        obtain ⟨pre, post, hl, hpre, hmin⟩ := ih m hm
        refine ⟨pre, post ++ [x], ?_, hpre, ?_⟩
        · rw [hl]
          simp
        · intro y hy
          rcases List.mem_append.1 hy with hy | hy
          · exact hmin y hy
          · simp only [List.mem_singleton] at hy
            subst hy
            exact not_lt.1 hxm

theorem goSortSmall_eq_isortBy {l : List Nat} (h : l.length ≤ 6) :
    goSortSmall key l = isortBy key l := by
  have h0 : l.length - 6 = 0 := by omega
  rw [goSortSmall, shellPass6, h0]
  rfl

end sortproofs

theorem goSortSmall_nextRun_eq {s : Scheduler} (hlen : s.jobs.length ≤ 6) :
    goSortSmall (fun h => (s.heap h).nextRun) s.jobs = sortByNextRun s.heap s.jobs :=
  goSortSmall_eq_isortBy _ hlen

/-! ### Properties of the map model and the heap folds -/

theorem hupdate_self (hp : Nat → Job) (i : Nat) (j : Job) : hupdate hp i j i = j := by
  simp [hupdate]

theorem hupdate_ne (hp : Nat → Job) (i : Nat) (j : Job) {k : Nat} (h : k ≠ i) :
    hupdate hp i j k = hp k := by
  simp [hupdate, h]

theorem mlookup_mapDel_self (k : String) (m : List (String × Nat)) :
    mlookup k (mapDel k m) = none := by
  induction m with
  | nil => rfl
  | cons p r ih =>
    by_cases hp : p.1 = k
    · simpa [mapDel, hp] using ih
    · simpa [mapDel, hp, mlookup] using ih

theorem mlookup_mapDel_ne (k k' : String) (m : List (String × Nat)) (h : k' ≠ k) :
    mlookup k' (mapDel k m) = mlookup k' m := by
  induction m with
  | nil => rfl
  | cons p r ih =>
    by_cases hp : p.1 = k
    · simp [mapDel, hp, mlookup, Ne.symm h, ih]
    · by_cases h2 : p.1 = k'
      · simp [mapDel, hp, mlookup, h2, h]
      · simp [mapDel, hp, mlookup, h2, ih]

theorem not_mem_mapDel_self (k : String) (v : Nat) (m : List (String × Nat)) :
    (k, v) ∉ mapDel k m := by
  induction m with
  | nil => simp [mapDel]
  | cons p r ih =>
    by_cases hp : p.1 = k
    · simpa [mapDel, hp] using ih
    · simp only [mapDel, hp, if_false, List.mem_cons]
      rintro (rfl | hm)
      · exact hp rfl
      · exact ih hm

theorem mlookup_mapSet_self (k : String) (v : Nat) (m : List (String × Nat)) :
    mlookup k (mapSet k v m) = some v := by
  simp [mapSet, mlookup]

theorem mlookup_mapSet_ne (k k' : String) (v : Nat) (m : List (String × Nat))
    (h : k' ≠ k) : mlookup k' (mapSet k v m) = mlookup k' m := by
  have h1 : ¬ k = k' := Ne.symm h
  simp only [mapSet, mlookup, h1, if_false]
  exact mlookup_mapDel_ne k k' m h

theorem drainEmergency_runCount (l : List Nat) (hp : Nat → Job) (a : Nat) :
    ((drainEmergency hp l) a).runCount = (hp a).runCount + l.count a := by
  induction l generalizing hp with
  | nil => simp [drainEmergency]
  | cons e r ih =>
    simp only [drainEmergency, List.foldl_cons] at ih ⊢
    rw [ih]
    by_cases he : a = e
    · subst he
      rw [hupdate_self]
      simp only [runJob, List.count_cons]
      simp
      omega
    · rw [hupdate_ne _ _ _ he, List.count_cons_of_ne he]

theorem runLoop_not_mem (l : List Nat) (now : Int) (hp : Nat → Job) (a : Nat)
    (h : a ∉ l) : runLoop now hp l a = hp a := by
  induction l generalizing hp with
  | nil => rfl
  | cons x r ih =>
    simp only [runLoop, List.foldl_cons] at ih ⊢
    rw [ih _ (fun hc => h (List.mem_cons_of_mem _ hc)),
      hupdate_ne _ _ _ (fun he => h (by rw [he]; exact List.mem_cons_self x r))]

/-- The value of a name-index fold (`PauseAll`/`ResumeAll`) at one
handle, for any idempotent per-job action. -/
theorem setFold_eq (f : Job → Job) (hf : ∀ j, f (f j) = f j)
    (m : List (String × Nat)) (hp : Nat → Job) (a : Nat) :
    (m.foldl (fun h p => hupdate h p.2 (f (h p.2))) hp) a =
      if a ∈ m.map Prod.snd then f (hp a) else hp a := by
  induction m generalizing hp with
  | nil => simp
  | cons p r ih =>
    simp only [List.foldl_cons, List.map_cons, List.mem_cons]
    rw [ih]
    by_cases hpa : a = p.2
    · subst hpa
      by_cases hr : p.2 ∈ r.map Prod.snd <;>
        simp [hr, hupdate_self, hf]
    · by_cases hr : a ∈ r.map Prod.snd <;>
        simp [hr, hpa, hupdate_ne _ _ _ hpa]

theorem pauseJob_idem (j : Job) : pauseJob (pauseJob j) = pauseJob j := rfl

theorem resumeJob_idem (j : Job) : resumeJob (resumeJob j) = resumeJob j := rfl

/-! ### Well-formedness and reachability -/

/-- The structural consistency of a scheduler state: every name binding
points into the jobs sequence, distinct names hold distinct handles,
every handle in the sequence or the index is below the allocation
counter, and the sequence holds each handle at most once (the spec's
unique-membership requirement, §3). -/
def WF (s : Scheduler) : Prop :=
  (∀ n h, mlookup n s.jobMap = some h → h ∈ s.jobs) ∧
  (∀ n1 n2 h, mlookup n1 s.jobMap = some h → mlookup n2 s.jobMap = some h → n1 = n2) ∧
  (∀ h ∈ s.jobs, h < s.nextId) ∧
  (∀ n h, mlookup n s.jobMap = some h → h < s.nextId) ∧
  s.jobs.Nodup

theorem mem_sortByInterval {hp : Nat → Job} {a : Nat} {l : List Nat} :
    a ∈ sortByInterval hp l ↔ a ∈ l := mem_isortBy _

theorem mem_sortByNextRun {hp : Nat → Job} {a : Nat} {l : List Nat} :
    a ∈ sortByNextRun hp l ↔ a ∈ l := mem_isortBy _

theorem nodup_sortByInterval {hp : Nat → Job} {l : List Nat} (h : l.Nodup) :
    (sortByInterval hp l).Nodup := ((isortBy_perm _ l).nodup_iff).2 h

theorem nodup_sortByNextRun {hp : Nat → Job} {l : List Nat} (h : l.Nodup) :
    (sortByNextRun hp l).Nodup := ((isortBy_perm _ l).nodup_iff).2 h

theorem nodup_append_fresh {l : List Nat} {id : Nat} (h5 : l.Nodup)
    (h3 : ∀ x ∈ l, x < id) : (l ++ [id]).Nodup := by
  rw [List.nodup_append]
  refine ⟨h5, List.nodup_singleton id, ?_⟩
  intro x hx hy
  simp only [List.mem_singleton] at hy
  subst hy
  exact lt_irrefl x (h3 x hx)

theorem mlookup_mapSet_cases {name : String} {v : Nat} {m : List (String × Nat)}
    {n : String} {h : Nat} (hl : mlookup n (mapSet name v m) = some h) :
    (n = name ∧ h = v) ∨ (n ≠ name ∧ mlookup n m = some h) := by
  by_cases hn : n = name
  · subst hn
    rw [mlookup_mapSet_self] at hl
    exact Or.inl ⟨rfl, (Option.some.inj hl).symm⟩
  · rw [mlookup_mapSet_ne _ _ _ _ hn] at hl
    exact Or.inr ⟨hn, hl⟩

theorem WF_NewScheduler : WF NewScheduler := by
  refine ⟨?_, ?_, ?_, ?_, ?_⟩ <;> simp [NewScheduler, mlookup, WF]

theorem WF_Every (i : Nat) {s : Scheduler} (hw : WF s) : WF (Every i s).2 := by
  obtain ⟨h1, h2, h3, h4, h5⟩ := hw
  simp only [Every]
  refine ⟨?_, ?_, ?_, ?_, ?_⟩
  · intro n h hl
    exact mem_sortByInterval.2 (List.mem_append_left _ (h1 n h hl))
  · exact h2
  · intro h hm
    rcases List.mem_append.1 (mem_sortByInterval.1 hm) with hm | hm
    · exact Nat.lt_succ_of_lt (h3 h hm)
    · simp only [List.mem_singleton] at hm
      subst hm
      exact Nat.lt_succ_self _
  · intro n h hl
    exact Nat.lt_succ_of_lt (h4 n h hl)
  · exact nodup_sortByInterval (nodup_append_fresh h5 h3)

theorem WF_EveryWithName (i : Nat) (name : String) {s : Scheduler} (hw : WF s) :
    WF (EveryWithName i name s).2 := by
  obtain ⟨h1, h2, h3, h4, h5⟩ := hw
  have hmapc2 : ∀ n1 n2 h, mlookup n1 (mapSet name s.nextId s.jobMap) = some h →
      mlookup n2 (mapSet name s.nextId s.jobMap) = some h → n1 = n2 := by
    intro n1 n2 h hn1 hn2
    rcases mlookup_mapSet_cases hn1 with ⟨rfl, rfl⟩ | ⟨hne1, hl1⟩
    · rcases mlookup_mapSet_cases hn2 with ⟨rfl, _⟩ | ⟨hne2, hl2⟩
      · rfl
      · exact absurd (h4 _ _ hl2) (lt_irrefl _)
    · rcases mlookup_mapSet_cases hn2 with ⟨rfl, rfl⟩ | ⟨hne2, hl2⟩
      · exact absurd (h4 _ _ hl1) (lt_irrefl _)
      · exact h2 _ _ _ hl1 hl2
  have hmapc4 : ∀ n h, mlookup n (mapSet name s.nextId s.jobMap) = some h →
      h < s.nextId + 1 := by
    intro n h hl
    rcases mlookup_mapSet_cases hl with ⟨_, rfl⟩ | ⟨_, hl⟩
    · exact Nat.lt_succ_self _
    · exact Nat.lt_succ_of_lt (h4 _ _ hl)
  cases hm : mlookup name s.jobMap with
  | none =>
    simp only [EveryWithName, hm]
    refine ⟨?_, hmapc2, ?_, hmapc4, ?_⟩
    · intro n h hl
      rcases mlookup_mapSet_cases hl with ⟨_, rfl⟩ | ⟨_, hl⟩
      · exact mem_sortByInterval.2 (List.mem_append_right _ (List.mem_singleton_self _))
      · exact mem_sortByInterval.2 (List.mem_append_left _ (h1 n h hl))
    · intro h hmem
      rcases List.mem_append.1 (mem_sortByInterval.1 hmem) with hmem | hmem
      · exact Nat.lt_succ_of_lt (h3 h hmem)
      · simp only [List.mem_singleton] at hmem
        subst hmem
        exact Nat.lt_succ_self _
    · exact nodup_sortByInterval (nodup_append_fresh h5 h3)
  | some old =>
    simp only [EveryWithName, hm]
    refine ⟨?_, hmapc2, ?_, hmapc4, ?_⟩
    · intro n h hl
      rcases mlookup_mapSet_cases hl with ⟨_, rfl⟩ | ⟨hne, hl2⟩
      · exact mem_sortByInterval.2 (List.mem_append_right _ (List.mem_singleton_self _))
      · have hho : h ≠ old := by
          intro he
          exact hne (h2 n name old (he ▸ hl2) hm)
        exact mem_sortByInterval.2
          (List.mem_append_left _ ((List.mem_erase_of_ne hho).2 (h1 n h hl2)))
    · intro h hmem
      rcases List.mem_append.1 (mem_sortByInterval.1 hmem) with hmem | hmem
      · exact Nat.lt_succ_of_lt (h3 h (List.mem_of_mem_erase hmem))
      · simp only [List.mem_singleton] at hmem
        subst hmem
        exact Nat.lt_succ_self _
    · exact nodup_sortByInterval
        (nodup_append_fresh (h5.erase old) (fun x hx => h3 x (List.mem_of_mem_erase hx)))

theorem WF_Emergency {s : Scheduler} (hw : WF s) : WF (Emergency s).2 := by
  obtain ⟨h1, h2, h3, h4, h5⟩ := hw
  exact ⟨h1, h2, fun h hm => Nat.lt_succ_of_lt (h3 h hm),
    fun n h hl => Nat.lt_succ_of_lt (h4 n h hl), h5⟩

theorem WF_RemoveWithName (name : String) {s : Scheduler} (hw : WF s) :
    WF (RemoveWithName name s).2 := by
  obtain ⟨h1, h2, h3, h4, h5⟩ := hw
  cases hm : mlookup name s.jobMap with
  | none => simpa only [RemoveWithName, hm] using ⟨h1, h2, h3, h4, h5⟩
  | some d =>
    by_cases hd : d ∈ s.jobs
    · simp only [RemoveWithName, hm, hd, if_pos]
      refine ⟨?_, ?_, ?_, ?_, h5.erase d⟩
      · intro n h hl
        by_cases hn : n = name
        · subst hn
          rw [mlookup_mapDel_self] at hl
          exact absurd hl (by simp)
        · rw [mlookup_mapDel_ne _ _ _ hn] at hl
          have hhd : h ≠ d := by
            intro he
            subst he
            exact hn (h2 n name h hl hm)
          exact (List.mem_erase_of_ne hhd).2 (h1 n h hl)
      · intro n1 n2 h hn1 hn2
        by_cases he1 : n1 = name
        · subst he1
          rw [mlookup_mapDel_self] at hn1
          exact absurd hn1 (by simp)
        · by_cases he2 : n2 = name
          · subst he2
            rw [mlookup_mapDel_self] at hn2
            exact absurd hn2 (by simp)
          · rw [mlookup_mapDel_ne _ _ _ he1] at hn1
            rw [mlookup_mapDel_ne _ _ _ he2] at hn2
            exact h2 _ _ _ hn1 hn2
      · exact fun h hmem => h3 h (List.mem_of_mem_erase hmem)
      · intro n h hl
        by_cases hn : n = name
        · subst hn
          rw [mlookup_mapDel_self] at hl
          exact absurd hl (by simp)
        · rw [mlookup_mapDel_ne _ _ _ hn] at hl
          exact h4 n h hl
    · simpa only [RemoveWithName, hm, hd, if_neg, not_false_iff]
        using ⟨h1, h2, h3, h4, h5⟩

theorem WF_heapOnly {s : Scheduler} (hw : WF s) (hp : Nat → Job) :
    WF { s with heap := hp } := hw

theorem WF_UpdateIntervalWithName (name : String) (i : Nat) {s : Scheduler}
    (hw : WF s) : WF (UpdateIntervalWithName name i s).2 := by
  cases hm : mlookup name s.jobMap with
  | none => simpa only [UpdateIntervalWithName, hm] using hw
  | some h => simpa only [UpdateIntervalWithName, hm] using WF_heapOnly hw _

theorem WF_PauseWithName (name : String) {s : Scheduler} (hw : WF s) :
    WF (PauseWithName name s).2 := by
  cases hm : mlookup name s.jobMap with
  | none => simpa only [PauseWithName, hm] using hw
  | some h => simpa only [PauseWithName, hm] using WF_heapOnly hw _

theorem WF_ResumeWithName (name : String) {s : Scheduler} (hw : WF s) :
    WF (ResumeWithName name s).2 := by
  cases hm : mlookup name s.jobMap with
  | none => simpa only [ResumeWithName, hm] using hw
  | some h => simpa only [ResumeWithName, hm] using WF_heapOnly hw _

theorem WF_PauseAll {s : Scheduler} (hw : WF s) : WF (PauseAll s) := hw

theorem WF_ResumeAll {s : Scheduler} (hw : WF s) : WF (ResumeAll s) := hw

theorem WF_Clear {s : Scheduler} (hw : WF s) : WF (Clear s) := by
  obtain ⟨h1, h2, h3, h4, h5⟩ := hw
  refine ⟨?_, ?_, ?_, ?_, ?_⟩ <;> simp [Clear, mlookup, WF]

theorem WF_NextRun {s : Scheduler} (hw : WF s) : WF (NextRun s).2 := by
  by_cases hj : s.jobs = []
  · simpa only [NextRun, hj, if_pos] using hw
  · obtain ⟨h1, h2, h3, h4, h5⟩ := hw
    simp only [NextRun, hj, if_neg, not_false_iff]
    exact ⟨fun n h hl => mem_sortByNextRun.2 (h1 n h hl), h2,
      fun h hm => h3 h (mem_sortByNextRun.1 hm), h4, nodup_sortByNextRun h5⟩

theorem WF_runPending (now : Int) {s : Scheduler} (hw : WF s) :
    WF (runPending now s) := by
  obtain ⟨h1, h2, h3, h4, h5⟩ := hw
  exact ⟨fun n h hl => mem_sortByNextRun.2 (h1 n h hl), h2,
    fun h hm => h3 h (mem_sortByNextRun.1 hm), h4, nodup_sortByNextRun h5⟩

theorem WF_RunAllWithDelay (d : Nat) (now : Int) {s : Scheduler} (hw : WF s) :
    WF (RunAllWithDelay d now s) := by
  obtain ⟨h1, h2, h3, h4, h5⟩ := hw
  exact ⟨fun n h hl => mem_sortByNextRun.2 (h1 n h hl), h2,
    fun h hm => h3 h (mem_sortByNextRun.1 hm), h4, nodup_sortByNextRun h5⟩

/-- States reachable from a fresh scheduler by the public operations
other than `Remove` (whose effect on the name index is settled
separately).  `Start`'s background loop is represented by its tick body
`runPending`. -/
inductive Reach : Scheduler → Prop
  | newScheduler : Reach NewScheduler
  | every (i : Nat) {s : Scheduler} : Reach s → Reach (Every i s).2
  | everyWithName (i : Nat) (n : String) {s : Scheduler} :
      Reach s → Reach (EveryWithName i n s).2
  | emergency {s : Scheduler} : Reach s → Reach (Emergency s).2
  | removeWithName (n : String) {s : Scheduler} : Reach s → Reach (RemoveWithName n s).2
  | updateIntervalWithName (n : String) (i : Nat) {s : Scheduler} :
      Reach s → Reach (UpdateIntervalWithName n i s).2
  | pauseWithName (n : String) {s : Scheduler} : Reach s → Reach (PauseWithName n s).2
  | pauseAll {s : Scheduler} : Reach s → Reach (PauseAll s)
  | resumeWithName (n : String) {s : Scheduler} : Reach s → Reach (ResumeWithName n s).2
  | resumeAll {s : Scheduler} : Reach s → Reach (ResumeAll s)
  | clear {s : Scheduler} : Reach s → Reach (Clear s)
  | nextRun {s : Scheduler} : Reach s → Reach (NextRun s).2
  | runPending (now : Int) {s : Scheduler} : Reach s → Reach (runPending now s)
  | runAllWithDelay (d : Nat) (now : Int) {s : Scheduler} :
      Reach s → Reach (RunAllWithDelay d now s)

theorem WF_reach {s : Scheduler} (h : Reach s) : WF s := by
  induction h with
  | newScheduler => exact WF_NewScheduler
  | every i _ ih => exact WF_Every i ih
  | everyWithName i n _ ih => exact WF_EveryWithName i n ih
  | emergency _ ih => exact WF_Emergency ih
  | removeWithName n _ ih => exact WF_RemoveWithName n ih
  | updateIntervalWithName n i _ ih => exact WF_UpdateIntervalWithName n i ih
  | pauseWithName n _ ih => exact WF_PauseWithName n ih
  | pauseAll _ ih => exact WF_PauseAll ih
  | resumeWithName n _ ih => exact WF_ResumeWithName n ih
  | resumeAll _ ih => exact WF_ResumeAll ih
  | clear _ ih => exact WF_Clear ih
  | nextRun _ ih => exact WF_NextRun ih
  | runPending now _ ih => exact WF_runPending now ih
  | runAllWithDelay d now _ ih => exact WF_RunAllWithDelay d now ih

/-! ### The spec's storage-order invariant -/

/-- Invariant I1 of the spec: the jobs sequence is sorted ascending by
interval. -/
def sortedByInterval (s : Scheduler) : Prop :=
  s.jobs.Pairwise (fun a b => (s.heap a).interval ≤ (s.heap b).interval)

instance (s : Scheduler) : Decidable (sortedByInterval s) := by
  unfold sortedByInterval
  infer_instance

/-! ### Concrete states used by witnesses and counterexamples -/

/-- One job registered under the name "a" (handle 0, interval 1). -/
def exNamed : Scheduler := (EveryWithName 1 "a" NewScheduler).2

/-- One nameless job (handle 0, interval 1) added by Every. -/
def exUnnamed : Scheduler := (Every 1 NewScheduler).2

/-- One job registered under the name "x" with interval 5. -/
def exNamedX : Scheduler := (EveryWithName 5 "x" NewScheduler).2

/-- One emergency job (handle 0). -/
def exEmer : Scheduler := (Emergency NewScheduler).2

/-- The spec's sort example: Every over [3,2,5,1,1,500,10]. -/
def exSeven : Scheduler :=
  [3, 2, 5, 1, 1, 500, 10].foldl (fun t i => (Every i t).2) NewScheduler

/-- A reachable state for the C4 counterexample: Every(5); one tick at
time 0 (initializing job 0 with nextRun 5); Every(3); one tick at time 4
(initializing job 1 with nextRun 7).  The stored order is [1, 0], which
is interval-sorted ([3, 5]), while the nextRun order is [0, 1]. -/
def exD : Scheduler :=
  runPending 4 (Every 3 (runPending 0 (Every 5 NewScheduler).2)).2

/-- A reachable 7-job state for the C6 counterexample: five jobs with
intervals 10..50; one tick at time 0 initializing them (nextRun =
interval; the tick's 5-element sort is within the regime where every
toolchain's sort.Sort is the modelled insertion sort); then two more
not-yet-initialized jobs with intervals 25 and 60 (both nextRun 0, the
tied minimum).  Storage (interval order) is [0, 1, 5, 2, 3, 4, 6] with
nextRun keys [10, 20, 0, 30, 40, 50, 0]: handles 5 and 6 tie at the
minimum and handle 5 is stored earlier. -/
def exC6 : Scheduler :=
  (Every 60 (Every 25 (runPending 0
    (Every 50 (Every 40 (Every 30 (Every 20 (Every 10 NewScheduler).2).2).2).2).2)).2).2

/-! ### The claims -/

/-- C1: immediately after any insertion via Every or EveryWithName the
jobs sequence is sorted ascending by interval; when the previous state
was sorted (with handles below the allocation counter) the new sequence
is exactly the old sequence with the new handle inserted after all jobs
of less-or-equal interval, so the old jobs - in particular equal-interval
ties - keep their prior relative order; and the concrete insertion run
with intervals [3,2,5,1,1,500,10] reads back as [1,1,2,3,5,10,500]. -/
theorem C1_sort_invariant :
    (∀ (s : Scheduler) (i : Nat), sortedByInterval (Every i s).2) ∧
    (∀ (s : Scheduler) (i : Nat) (name : String),
      sortedByInterval (EveryWithName i name s).2) ∧
    (∀ (s : Scheduler) (i : Nat), sortedByInterval s →
      (∀ h ∈ s.jobs, h < s.nextId) →
      (Every i s).2.jobs =
        insertBy (fun h => ((Every i s).2.heap h).interval) s.nextId s.jobs) ∧
    exSeven.jobs.map (fun h => (exSeven.heap h).interval) = [1, 1, 2, 3, 5, 10, 500] := by
  refine ⟨?_, ?_, ?_, by decide⟩
  · intro s i
    exact sorted_isortBy (fun h => ((hupdate s.heap s.nextId (newJob i)) h).interval) _
  · intro s i name
    exact sorted_isortBy (fun h => ((hupdate s.heap s.nextId (newJob i)) h).interval) _
  · intro s i hs hb
    have hkey : ∀ x ∈ s.jobs,
        ((hupdate s.heap s.nextId (newJob i)) x).interval = (s.heap x).interval :=
      fun x hx => by rw [hupdate_ne _ _ _ (Nat.ne_of_lt (hb x hx))]
    have hs' : s.jobs.Pairwise (fun a b =>
        ((hupdate s.heap s.nextId (newJob i)) a).interval ≤
        ((hupdate s.heap s.nextId (newJob i)) b).interval) := by
      refine List.Pairwise.imp_of_mem ?_ hs
      intro a b ha hb' hr
      rw [hkey a ha, hkey b hb']
      exact hr
    show sortByInterval _ (s.jobs ++ [s.nextId]) = _
    rw [sortByInterval, isortBy_append_singleton, isortBy_of_sorted _ hs']
    rfl

/-- C1 witness: the conditional part of C1 applied to the concrete
one-job state. -/
theorem C1_sort_invariant_witness :
    (sortedByInterval exUnnamed ∧ ∀ h ∈ exUnnamed.jobs, h < exUnnamed.nextId) ∧
    (Every 2 exUnnamed).2.jobs =
      insertBy (fun h => ((Every 2 exUnnamed).2.heap h).interval)
        exUnnamed.nextId exUnnamed.jobs :=
  ⟨⟨by decide, by decide⟩, C1_sort_invariant.2.2.1 exUnnamed 2 (by decide) (by decide)⟩

/-- C2 counterexample: Remove on the job registered under "a" removes it
from the jobs sequence but leaves the name-index entry, so afterwards
"a" still maps to handle 0 while the sequence is empty - the claimed
name-map cleanup by Remove does not happen, and the claimed equivalence
fails. -/
theorem C2_counterexample :
    (Remove 0 exNamed).1 = true ∧
    mlookup "a" (Remove 0 exNamed).2.jobMap = some 0 ∧
    (Remove 0 exNamed).2.jobs = [] := by decide

/-- C2 (amended): for every state reachable by the public operations
other than Remove, the name index is consistent with the jobs sequence
in the forward direction: a name maps to a handle only if that handle is
in the sequence.  (The converse direction fails for nameless jobs added
by Every, and Remove(handle) deletes only from the sequence, leaving the
name-map entry behind - see the counterexample.) -/
theorem C2_name_index_consistency {s : Scheduler} (hs : Reach s) :
    ∀ n h, mlookup n s.jobMap = some h → h ∈ s.jobs :=
  (WF_reach hs).1

/-- C2 witness: the amended consistency at a concrete reachable state. -/
theorem C2_name_index_consistency_witness : 0 ∈ exNamed.jobs :=
  C2_name_index_consistency (Reach.everyWithName 1 "a" Reach.newScheduler) "a" 0
    (by decide)

/-- C3 counterexample: handle 0 is a job in the jobs sequence (added by
Every, so it has no name), and PauseAll leaves it enabled, because
PauseAll iterates the name index rather than the jobs sequence. -/
theorem C3_counterexample :
    0 ∈ exUnnamed.jobs ∧ ((PauseAll exUnnamed).heap 0).enabled = true := by decide

/-- C3 (amended): PauseAll disables exactly the jobs registered in the
name index, and ResumeAll re-enables them; a job without a name-index
entry (added via Every without a name) is untouched; neither operation
changes the jobs sequence, the name index or the emergency queue. -/
theorem C3_pause_resume_all (s : Scheduler) :
    (PauseAll s).jobs = s.jobs ∧ (PauseAll s).jobMap = s.jobMap ∧
    (PauseAll s).ejobs = s.ejobs ∧
    (ResumeAll s).jobs = s.jobs ∧ (ResumeAll s).jobMap = s.jobMap ∧
    (ResumeAll s).ejobs = s.ejobs ∧
    (∀ h, h ∈ s.jobMap.map Prod.snd →
      (PauseAll s).heap h = pauseJob (s.heap h) ∧
      (ResumeAll s).heap h = resumeJob (s.heap h)) ∧
    (∀ h, h ∉ s.jobMap.map Prod.snd →
      (PauseAll s).heap h = s.heap h ∧ (ResumeAll s).heap h = s.heap h) := by
  refine ⟨rfl, rfl, rfl, rfl, rfl, rfl, ?_, ?_⟩
  · intro h hm
    have hp := setFold_eq pauseJob pauseJob_idem s.jobMap s.heap h
    have hr := setFold_eq resumeJob resumeJob_idem s.jobMap s.heap h
    rw [if_pos hm] at hp hr
    exact ⟨hp, hr⟩
  · intro h hm
    have hp := setFold_eq pauseJob pauseJob_idem s.jobMap s.heap h
    have hr := setFold_eq resumeJob resumeJob_idem s.jobMap s.heap h
    rw [if_neg hm] at hp hr
    exact ⟨hp, hr⟩

/-- C3 witness: the amended statement at concrete states - the named
job is paused, the nameless one is untouched. -/
theorem C3_pause_resume_all_witness :
    (0 ∈ exNamed.jobMap.map Prod.snd ∧
      (PauseAll exNamed).heap 0 = pauseJob (exNamed.heap 0)) ∧
    (0 ∉ exUnnamed.jobMap.map Prod.snd ∧
      (PauseAll exUnnamed).heap 0 = exUnnamed.heap 0) :=
  ⟨⟨by decide, ((C3_pause_resume_all exNamed).2.2.2.2.2.2.1 0 (by decide)).1⟩,
   ⟨by decide, ((C3_pause_resume_all exUnnamed).2.2.2.2.2.2.2 0 (by decide)).1⟩⟩

/-- C4 counterexample: in the reachable state exD the stored sequence is
[1, 0], interval-sorted ([3, 5]); NextRun sorts the stored sequence in
place by nextRun ([7, 5] - job 0 is due first), leaving jobs = [0, 1]:
the sequence after the call differs from the (interval-sorted) sequence
before it, falsifying the claimed non-persistence. -/
theorem C4_counterexample :
    exD.jobs = [1, 0] ∧
    exD.jobs.map (fun h => (exD.heap h).interval) = [3, 5] ∧
    sortedByInterval exD ∧
    (NextRun exD).2.jobs = [0, 1] ∧
    (NextRun exD).2.jobs ≠ exD.jobs := by decide

/-- C4 (amended): NextRun on a non-empty registry computes the due-time
order with its own comparator but persists it into storage: the stored
sequence after the call is the stable ascending-nextRun sort of the
previous sequence (a permutation, in general no longer in interval
order); heap, name index and emergency queue are unchanged. -/
theorem C4_nextrun_persists (s : Scheduler) (hne : s.jobs ≠ []) :
    (NextRun s).2.jobs = sortByNextRun s.heap s.jobs ∧
    (NextRun s).2.jobs ~ s.jobs ∧
    (NextRun s).2.jobs.Pairwise
      (fun a b => (s.heap a).nextRun ≤ (s.heap b).nextRun) ∧
    (NextRun s).2.heap = s.heap ∧ (NextRun s).2.jobMap = s.jobMap ∧
    (NextRun s).2.ejobs = s.ejobs := by
  have hred : (NextRun s).2 = { s with jobs := sortByNextRun s.heap s.jobs } := by
    simp only [NextRun, if_neg hne]
  rw [hred]
  exact ⟨rfl, isortBy_perm _ _, sorted_isortBy _ _, rfl, rfl, rfl⟩

/-- C4 witness: the amended statement at the concrete state exD. -/
theorem C4_nextrun_persists_witness :
    exD.jobs ≠ [] ∧ (NextRun exD).2.jobs = sortByNextRun exD.heap exD.jobs :=
  ⟨by decide, (C4_nextrun_persists exD (by decide)).1⟩

/-- C5: the receiver's own jobs are NOT run by RunAll.  The method body
of scheduler.RunAll is a call to the package-level RunAllWithDelay(0),
which targets the package default scheduler, so for a scheduler with one
registered job (handle 0), calling RunAll returns the receiver fully
unchanged and its job is never invoked (runCount stays 0), contradicting
the method's own documentation ("RunAll runs all of the jobs"). -/
theorem C5_runall_wrong_target :
    (RunAll 0 exUnnamed NewScheduler).1 = exUnnamed ∧
    0 ∈ exUnnamed.jobs ∧
    ((RunAll 0 exUnnamed NewScheduler).1.heap 0).runCount = 0 :=
  ⟨rfl, by decide, by decide⟩

/-- C6 counterexample: exC6 is a reachable 7-job registry in which
handles 5 and 6 are tied at the minimal nextRun 0 with handle 5 stored
earlier.  The claim says NextRun returns the first element of the
ascending-nextRun order with ties broken by existing relative position,
i.e. handle 5.  But sort.Sort, as shipped by every Go toolchain
contemporary with this repository (up to 1.18), runs its gap-6
ShellSort pass on slices of 7 to 12 elements, which carries handle 6
(strictly below the key at position 0) past the equal handle 5; the
subsequent stable insertion sort keeps it there, and NextRun returns
handle 6 with the minimal timestamp - refuting the tie-breaking
clause. -/
theorem C6_counterexample :
    exC6.jobs = [0, 1, 5, 2, 3, 4, 6] ∧
    (exC6.heap 5).nextRun = 0 ∧ (exC6.heap 6).nextRun = 0 ∧
    (∀ y ∈ exC6.jobs, (0 : Int) ≤ (exC6.heap y).nextRun) ∧
    (NextRunGo118 exC6).1 = (some 6, 0) := by decide

/-- C6 (amended): NextRun returns (nil handle, zero time) and the state
unchanged on an empty registry; on a non-empty registry it returns a
handle occurring in the sequence together with that job's nextRun,
which is less than or equal to every registered job's nextRun; and on
registries of at most 6 jobs - where sort.Sort provably degenerates to
the stable insertion sort on every relevant toolchain, as the
NextRunGo118 = NextRun conjunct witnesses - the returned handle is the
first element of the ascending-nextRun order with ties broken by
existing relative position.  On larger registries with ties the
returned handle need not be the earliest-positioned minimal one, since
sort.Sort is documented as not stable (see the counterexample). -/
theorem C6_nextrun_result (s : Scheduler) :
    (s.jobs = [] → NextRun s = ((none, 0), s)) ∧
    (s.jobs.length ≤ 6 → NextRunGo118 s = NextRun s) ∧
    (s.jobs ≠ [] → ∃ h pre post,
      (NextRun s).1 = (some h, (s.heap h).nextRun) ∧
      s.jobs = pre ++ h :: post ∧
      (∀ y ∈ s.jobs, (s.heap h).nextRun ≤ (s.heap y).nextRun) ∧
      (s.jobs.length ≤ 6 →
        ∀ y ∈ pre, (s.heap h).nextRun < (s.heap y).nextRun)) := by
  refine ⟨?_, ?_, ?_⟩
  · intro he
    simp [NextRun, he]
  · intro hlen
    by_cases hj : s.jobs = []
    · simp [NextRun, NextRunGo118, hj]
    · simp only [NextRun, NextRunGo118, if_neg hj]
      rw [goSortSmall_nextRun_eq hlen]
  · intro hne
    have hsome : ∃ h, firstMin (fun x => (s.heap x).nextRun) s.jobs = some h := by
      cases hf : firstMin (fun x => (s.heap x).nextRun) s.jobs with
      | none => exact absurd (firstMin_eq_none _ hf) hne
      | some h => exact ⟨h, rfl⟩
    obtain ⟨h, hf⟩ := hsome
    obtain ⟨pre, post, hl, hpre, hmin⟩ := firstMin_spec _ s.jobs h hf
    have hhead : (sortByNextRun s.heap s.jobs).head? = some h := by
      rw [sortByNextRun, head?_isortBy]
      exact hf
    cases hsort : sortByNextRun s.heap s.jobs with
    | nil =>
      rw [hsort] at hhead
      exact absurd hhead (by simp)
    | cons h0 t =>
      rw [hsort] at hhead
      simp only [List.head?_cons, Option.some.injEq] at hhead
      subst hhead
      refine ⟨h0, pre, post, ?_, hl, hmin, fun _ => hpre⟩
      simp only [NextRun, if_neg hne, hsort]

/-- C6 witness: the amended statement at a concrete one-job state, with
both hypotheses discharged. -/
theorem C6_nextrun_result_witness :
    (exUnnamed.jobs.length ≤ 6 ∧ NextRunGo118 exUnnamed = NextRun exUnnamed) ∧
    (exUnnamed.jobs ≠ [] ∧ ∃ h pre post,
      (NextRun exUnnamed).1 = (some h, (exUnnamed.heap h).nextRun) ∧
      exUnnamed.jobs = pre ++ h :: post ∧
      (∀ y ∈ exUnnamed.jobs,
        (exUnnamed.heap h).nextRun ≤ (exUnnamed.heap y).nextRun) ∧
      (exUnnamed.jobs.length ≤ 6 → ∀ y ∈ pre,
        (exUnnamed.heap h).nextRun < (exUnnamed.heap y).nextRun)) :=
  ⟨⟨by decide, (C6_nextrun_result exUnnamed).2.1 (by decide)⟩,
   ⟨by decide, (C6_nextrun_result exUnnamed).2.2 (by decide)⟩⟩

/-- C7: when name is bound to a handle that is present in the
(duplicate-free, counter-bounded) jobs sequence, EveryWithName(i2, name)
has remove-then-add semantics: afterwards the name index binds name to
the fresh handle only, the fresh job's interval is i2, the old handle is
no longer in the sequence, and the sequence length is unchanged. -/
theorem C7_name_replace (s : Scheduler) (i2 : Nat) (name : String) (old : Nat)
    (hm : mlookup name s.jobMap = some old) (hin : old ∈ s.jobs)
    (hb : ∀ x ∈ s.jobs, x < s.nextId) (hnd : s.jobs.Nodup) :
    mlookup name (EveryWithName i2 name s).2.jobMap = some s.nextId ∧
    (∀ v, (name, v) ∈ (EveryWithName i2 name s).2.jobMap → v = s.nextId) ∧
    ((EveryWithName i2 name s).2.heap s.nextId).interval = i2 ∧
    old ∉ (EveryWithName i2 name s).2.jobs ∧
    (EveryWithName i2 name s).2.jobs.length = s.jobs.length := by
  simp only [EveryWithName, hm]
  refine ⟨mlookup_mapSet_self _ _ _, ?_, ?_, ?_, ?_⟩
  · intro v hv
    simp only [mapSet, List.mem_cons] at hv
    rcases hv with hv | hv
    · exact congrArg Prod.snd hv
    · exact absurd hv (not_mem_mapDel_self _ _ _)
  · show (hupdate s.heap s.nextId (newJob i2) s.nextId).interval = i2
    rw [hupdate_self]
    rfl
  · intro hc
    rcases List.mem_append.1 (mem_sortByInterval.1 hc) with hc | hc
    · exact ((hnd.mem_erase_iff).1 hc).1 rfl
    · simp only [List.mem_singleton] at hc
      rw [hc] at hin
      exact absurd (hb _ hin) (lt_irrefl _)
  · rw [sortByInterval, (isortBy_perm _ _).length_eq, List.length_append,
      List.length_erase_of_mem hin, List.length_singleton]
    have := List.length_pos_of_mem hin
    omega

/-- C7 witness: registering "x" with interval 5 and then interval 7
leaves one binding for "x" with interval 7 and length 1. -/
theorem C7_name_replace_witness :
    (mlookup "x" exNamedX.jobMap = some 0 ∧ 0 ∈ exNamedX.jobs ∧
      (∀ x ∈ exNamedX.jobs, x < exNamedX.nextId) ∧ exNamedX.jobs.Nodup) ∧
    (mlookup "x" (EveryWithName 7 "x" exNamedX).2.jobMap = some exNamedX.nextId ∧
      ((EveryWithName 7 "x" exNamedX).2.heap exNamedX.nextId).interval = 7 ∧
      0 ∉ (EveryWithName 7 "x" exNamedX).2.jobs ∧
      (EveryWithName 7 "x" exNamedX).2.jobs.length = exNamedX.jobs.length) := by
  have h := C7_name_replace exNamedX 7 "x" 0 (by decide) (by decide) (by decide)
    (by decide)
  exact ⟨⟨by decide, by decide, by decide, by decide⟩, h.1, h.2.2.1, h.2.2.2.1, h.2.2.2.2⟩

/-- C8: one runPending tick runs every emergency job once per occurrence
in the queue, with no due-time or enabled hypothesis (the drain is
unconditional), and empties the queue; a second tick with no newly
registered emergency jobs does not run it again. -/
theorem C8_emergency_drains_once (s : Scheduler) (now now2 : Int) (e : Nat)
    (he : e ∉ s.jobs) :
    ((runPending now s).heap e).runCount =
      (s.heap e).runCount + s.ejobs.count e ∧
    (runPending now s).ejobs = [] ∧
    ((runPending now2 (runPending now s)).heap e).runCount =
      (s.heap e).runCount + s.ejobs.count e := by
  have hnotm : e ∉ sortByNextRun (drainEmergency s.heap s.ejobs) s.jobs :=
    fun hc => he (mem_sortByNextRun.1 hc)
  have h1 : ((runPending now s).heap e).runCount =
      (s.heap e).runCount + s.ejobs.count e := by
    show ((runLoop now (drainEmergency s.heap s.ejobs)
      (sortByNextRun (drainEmergency s.heap s.ejobs) s.jobs)) e).runCount = _
    rw [runLoop_not_mem _ _ _ _ hnotm, drainEmergency_runCount]
  refine ⟨h1, rfl, ?_⟩
  have hnotm2 : e ∉ sortByNextRun
      (drainEmergency (runPending now s).heap (runPending now s).ejobs)
      (runPending now s).jobs := by
    intro hc
    have hc2 : e ∈ (runPending now s).jobs := mem_sortByNextRun.1 hc
    have hc3 : e ∈ sortByNextRun (drainEmergency s.heap s.ejobs) s.jobs := hc2
    exact hnotm hc3
  show ((runLoop now2
    (drainEmergency (runPending now s).heap (runPending now s).ejobs)
    (sortByNextRun
      (drainEmergency (runPending now s).heap (runPending now s).ejobs)
      (runPending now s).jobs)) e).runCount = _
  rw [runLoop_not_mem _ _ _ _ hnotm2]
  exact h1

/-- C8 witness: one emergency job, two ticks, run exactly once. -/
theorem C8_emergency_drains_once_witness :
    0 ∉ exEmer.jobs ∧
    (((runPending 0 exEmer).heap 0).runCount =
      (exEmer.heap 0).runCount + exEmer.ejobs.count 0 ∧
    (runPending 0 exEmer).ejobs = [] ∧
    ((runPending 1 (runPending 0 exEmer)).heap 0).runCount =
      (exEmer.heap 0).runCount + exEmer.ejobs.count 0) :=
  ⟨by decide, C8_emergency_drains_once exEmer 0 1 0 (by decide)⟩

/-- C9: UpdateIntervalWithName(name, n) returns true and sets exactly
the named job's interval to n when name is bound, leaving the jobs
sequence (hence its order), the name index, the emergency queue and
every other job untouched; when name is unbound it returns false and the
whole state unchanged. -/
theorem C9_update_interval (s : Scheduler) (name : String) (n : Nat) :
    (∀ h, mlookup name s.jobMap = some h →
      (UpdateIntervalWithName name n s).1 = true ∧
      (UpdateIntervalWithName name n s).2.heap h = updateIntervalJob n (s.heap h) ∧
      ((UpdateIntervalWithName name n s).2.heap h).interval = n ∧
      (UpdateIntervalWithName name n s).2.jobs = s.jobs ∧
      (UpdateIntervalWithName name n s).2.jobMap = s.jobMap ∧
      (UpdateIntervalWithName name n s).2.ejobs = s.ejobs ∧
      ∀ k, k ≠ h → (UpdateIntervalWithName name n s).2.heap k = s.heap k) ∧
    (mlookup name s.jobMap = none → UpdateIntervalWithName name n s = (false, s)) := by
  constructor
  · intro h hm
    have hred : UpdateIntervalWithName name n s =
        (true, { s with heap := hupdate s.heap h (updateIntervalJob n (s.heap h)) }) := by
      simp only [UpdateIntervalWithName, hm]
    rw [hred]
    refine ⟨rfl, hupdate_self _ _ _, ?_, rfl, rfl, rfl, ?_⟩
    · show (hupdate s.heap h (updateIntervalJob n (s.heap h)) h).interval = n
      rw [hupdate_self]
      rfl
    · intro k hk
      exact hupdate_ne _ _ _ hk
  · intro hm
    simp only [UpdateIntervalWithName, hm]

/-- C9 witness: updating the interval of the job named "a" to 42. -/
theorem C9_update_interval_witness :
    mlookup "a" exNamed.jobMap = some 0 ∧
    ((UpdateIntervalWithName "a" 42 exNamed).1 = true ∧
      ((UpdateIntervalWithName "a" 42 exNamed).2.heap 0).interval = 42 ∧
      (UpdateIntervalWithName "a" 42 exNamed).2.jobs = exNamed.jobs) := by
  have h := (C9_update_interval exNamed "a" 42).1 0 (by decide)
  exact ⟨by decide, h.1, h.2.2.1, h.2.2.2.1⟩

/-- C10: Clear resets only the jobs sequence and the name index; the
emergency queue and the heap are untouched, and an emergency job queued
before Clear is still run (once per queue occurrence) by the next
runPending tick. -/
theorem C10_clear_keeps_emergency (s : Scheduler) (now : Int) (e : Nat) :
    (Clear s).ejobs = s.ejobs ∧ (Clear s).heap = s.heap ∧
    (Clear s).jobs = [] ∧ (Clear s).jobMap = [] ∧
    ((runPending now (Clear s)).heap e).runCount =
      (s.heap e).runCount + s.ejobs.count e := by
  refine ⟨rfl, rfl, rfl, rfl, ?_⟩
  show ((runLoop now (drainEmergency s.heap s.ejobs)
    (sortByNextRun (drainEmergency s.heap s.ejobs) [])) e).runCount = _
  exact drainEmergency_runCount _ _ _

end Gocron
